import Mathlib

/-!
Verification of the operation-ID generator (`src/generator/src/main.rs`).

Strings are modelled as lists of characters (`Str`). Rust `char_indices`
yields byte indices; every index the code stores or compares is a character
boundary, and the order-preserving bijection between boundary byte indices
and character indices makes the character-index model faithful.

The `BTreeMap`s of the registry are modelled as association lists; every
insertion performed by the code is guarded by a `contains_key` check on the
same key, so prepending an entry has exactly the `BTreeMap::insert`
lookup semantics.
-/

set_option autoImplicit false

namespace VergeOpid

abbrev Str := List Char

/-- Model of Rust `char::is_alphabetic`. Exact on every code point up to
U+00FF (ASCII letters; the Latin-1 letters ª, µ, º, À–Ö, Ø–ö, ø–ÿ).
Code points above U+00FF, whose Unicode tables are outside this model,
are classified as alphabetic; no concrete input used in this development
contains such a character. -/
def rustIsAlphabetic (c : Char) : Bool :=
  let n := c.toNat
  (65 ≤ n && n ≤ 90) || (97 ≤ n && n ≤ 122) ||
  n == 0xAA || n == 0xB5 || n == 0xBA ||
  (0xC0 ≤ n && n ≤ 0xD6) || (0xD8 ≤ n && n ≤ 0xF6) || (0xF8 ≤ n)

/-- Model of Rust `char::is_numeric`. Exact on every code point up to
U+00FF (the ASCII digits and the Latin-1 numerics ², ³, ¹, ¼, ½, ¾);
code points above U+00FF are classified as non-numeric. -/
def rustIsNumeric (c : Char) : Bool :=
  let n := c.toNat
  (48 ≤ n && n ≤ 57) || n == 0xB2 || n == 0xB3 || n == 0xB9 ||
  (0xBC ≤ n && n ≤ 0xBE)

/-- Model of Rust `char::is_alphanumeric`:
`is_alphabetic() || is_numeric()`. -/
def rustIsAlphanumeric (c : Char) : Bool :=
  rustIsAlphabetic c || rustIsNumeric c

/-- Model of Rust `str::to_lowercase`, applied character by character.
Exact on every code point up to U+00FF (ASCII upper-case letters and the
Latin-1 letters À–Þ except ×, all mapped 32 code points up); code points
above U+00FF are left unchanged. -/
def rustToLower (c : Char) : Char :=
  if 65 ≤ c.toNat ∧ c.toNat ≤ 90 then Char.ofNat (c.toNat + 32)
  else if 0xC0 ≤ c.toNat ∧ c.toNat ≤ 0xDE ∧ c.toNat ≠ 0xD7 then Char.ofNat (c.toNat + 32)
  else c

/-- The character for a decimal digit, as Rust's integer `Display` emits it. -/
def decDigit : Nat → Char
  | 0 => '0' | 1 => '1' | 2 => '2' | 3 => '3' | 4 => '4'
  | 5 => '5' | 6 => '6' | 7 => '7' | 8 => '8' | _ => '9'

/-- Numeric value of a decimal digit character (used only in proofs, to
invert `decDigit`). -/
def decDigitVal : Char → Nat
  | '0' => 0 | '1' => 1 | '2' => 2 | '3' => 3 | '4' => 4
  | '5' => 5 | '6' => 6 | '7' => 7 | '8' => 8 | _ => 9

/-- Big-endian decimal digits of `n`, empty for `0`; `fuel` bounds the
recursion and any `fuel ≥ n` is exact. -/
def natDecimalAux : Nat → Nat → Str
  | 0, _ => []
  | fuel + 1, n =>
    if n = 0 then [] else natDecimalAux fuel (n / 10) ++ [decDigit (n % 10)]

/-- Model of Rust's decimal integer formatting (`format!("{attempt}")`). -/
def natDecimal (n : Nat) : Str :=
  if n = 0 then ['0'] else natDecimalAux n n

/-- Parse a digit string back to a number (used only in proofs). -/
def decParse (l : Str) : Nat :=
  l.foldl (fun a c => 10 * a + decDigitVal c) 0

/-- Errors of the registry, one constructor per distinct `anyhow!` message:
`invalidKey` is "path and method may not be empty", `duplicateId` is
"operation id is already present: ...", `duplicateEndpoint` is
"the combination of path ... and method ... is already present".
`insert_synthetic_opid_for_path_method` reports its endpoint-already-present
failure with the *text* of the duplicate-ID message applied to the key; it
is modelled as `duplicateEndpoint` since it carries the key, not an ID. -/
inductive RegError where
  | invalidKey : RegError
  | duplicateId (id : Str) : RegError
  | duplicateEndpoint (path method : Str) : RegError
deriving DecidableEq, Repr

instance {ε α : Type} [DecidableEq ε] [DecidableEq α] : DecidableEq (Except ε α) := fun a b =>
  match a, b with
  | .error e, .error f =>
    if h : e = f then .isTrue (h ▸ rfl) else .isFalse (by intro hh; cases hh; exact h rfl)
  | .error _, .ok _ => .isFalse (by intro hh; cases hh)
  | .ok _, .error _ => .isFalse (by intro hh; cases hh)
  | .ok a, .ok b =>
    if h : a = b then .isTrue (h ▸ rfl) else .isFalse (by intro hh; cases hh; exact h rfl)

/-- The `PathMethod` struct: normalized path, method, optional ordered
parameter names. -/
structure PathMethod where
  path : Str
  method : Str
  params : Option (List Str)
deriving DecidableEq, Repr

/-- `PathMethod::new`: fails when path or method is empty. -/
def PathMethod.new (path method : Str) (params : Option (List Str)) :
    Except RegError PathMethod :=
  if path = [] ∨ method = [] then .error .invalidKey
  else .ok ⟨path, method, params⟩

/-- Lookup in an association list, the `BTreeMap::get` of the model. -/
def alookup {α β : Type} [DecidableEq α] : List (α × β) → α → Option β
  | [], _ => none
  | (k, v) :: rest, a => if k = a then some v else alookup rest a

/-- `path[a..b]` on the character-list model of a Rust string. -/
def strSlice (l : Str) (a b : Nat) : Str := (l.drop a).take (b - a)

/-- The mutable locals of the `extract_params` scanning loop. -/
structure EPState where
  params : List Str
  clean_path : Str
  last_end : Nat
  in_param : Bool
  param_start : Nat
deriving Repr, DecidableEq

/-- One iteration of the `for (i, c) in path.char_indices()` loop body of
`extract_params`. -/
def epStep (path : Str) (s : EPState) (i : Nat) (c : Char) : EPState :=
  if c = '\x7b' ∧ ¬ s.in_param then
    { s with clean_path := s.clean_path ++ strSlice path s.last_end i ++ ['\x7b', '\x7d'],
             in_param := true, param_start := i + 1 }
  else if c = '\x7d' ∧ s.in_param then
    { s with in_param := false,
             params := if s.param_start < i then s.params ++ [strSlice path s.param_start i]
                       else s.params,
             last_end := i + 1 }
  else s

/-- The whole scanning loop of `extract_params`, running over the
remaining characters with `i` the index of the first of them. -/
def epGo (path : Str) : EPState → Nat → Str → EPState
  | s, _, [] => s
  | s, i, c :: cs => epGo path (epStep path s i c) (i + 1) cs

/-- `extract_params`: extract `\x7bname\x7d` path parameters and replace them
in the path by `\x7b\x7d`; `none` when no (non-empty) parameter was found. -/
def extract_params (path : Str) : Option (List Str × Str) :=
  let s := epGo path ⟨[], [], 0, false, 0⟩ 0 path
  let clean := if s.last_end < path.length then s.clean_path ++ path.drop s.last_end
               else s.clean_path
  if s.params = [] then none else some (s.params, clean)

/-- State of the index-free rescan of `extract_params` used for proofs:
`lit` is the text `path[last_end..]` up to the pending `\x7b` (if any) and
`parm` the capture in progress. -/
structure DState where
  params : List Str
  clean_path : Str
  lit : Str
  inp : Bool
  parm : Str
deriving Repr, DecidableEq

/-- Index-free version of one `extract_params` loop iteration. -/
def dStep (s : DState) (c : Char) : DState :=
  if c = '\x7b' ∧ ¬ s.inp then
    { s with clean_path := s.clean_path ++ s.lit ++ ['\x7b', '\x7d'], inp := true, parm := [] }
  else if c = '\x7d' ∧ s.inp then
    { s with inp := false,
             params := if s.parm ≠ [] then s.params ++ [s.parm] else s.params,
             lit := [], parm := [] }
  else if s.inp then { s with parm := s.parm ++ [c] }
  else { s with lit := s.lit ++ [c] }

/-- Index-free scanning loop. -/
def dGo : DState → Str → DState := List.foldl dStep

/-- Index-free reformulation of `extract_params`, proved equal to it in
`extract_params_eq_dExtract`. -/
def dExtract (path : Str) : Option (List Str × Str) :=
  let s := dGo ⟨[], [], [], false, []⟩ path
  let clean := s.clean_path ++ (if s.inp then s.lit ++ '\x7b' :: s.parm else s.lit)
  if s.params = [] then none else some (s.params, clean)

/-- Correspondence between the indexed scanner state at position `i` of
`path` and the index-free state. -/
def Rel (path : Str) (i : Nat) (S : EPState) (s : DState) : Prop :=
  s.params = S.params ∧ s.clean_path = S.clean_path ∧ s.inp = S.in_param ∧
  (S.in_param = false → S.last_end ≤ i ∧ s.lit = strSlice path S.last_end i) ∧
  (S.in_param = true →
    S.last_end + 1 ≤ S.param_start ∧ S.param_start ≤ i ∧
    path[S.param_start - 1]? = some '\x7b' ∧
    s.lit = strSlice path S.last_end (S.param_start - 1) ∧
    s.parm = strSlice path S.param_start i)

/-- `trim_matches('_')`: strip leading and trailing underscores. -/
def trimUnderscores (l : Str) : Str :=
  ((l.dropWhile (· = '_')).reverse.dropWhile (· = '_')).reverse

/-- The first lines of `gen_operation_id`: replace every non-alphanumeric
character of the key's path by `_`, strip the underscores at both ends,
lower-case, and prepend `n` when the result starts with a numeric
character. -/
def baseToken (path : Str) : Str :=
  let opid := (trimUnderscores (path.map fun c =>
    if rustIsAlphanumeric c then c else '_')).map rustToLower
  match opid with
  | [] => []
  | c :: _ => if rustIsNumeric c then 'n' :: opid else opid

/-- `OperationIds::gen_operation_id`: base token, then the attempt counter
(when non-zero), `_`, the lower-cased method, and one `_by_<param>` suffix
per captured parameter. -/
def gen_operation_id (pm : PathMethod) (attempt : Nat) : Str :=
  let opid := baseToken pm.path
  let m := pm.method.map rustToLower
  let opid := if attempt = 0 then opid ++ '_' :: m
              else opid ++ natDecimal attempt ++ '_' :: m
  match pm.params with
  | some ps => ps.foldl (fun acc p => acc ++ ('_' :: 'b' :: 'y' :: '_' :: []) ++ p.map rustToLower) opid
  | none => opid

/-- The key-construction `match` that opens `opid_for_path_method`,
`insert_opid_with_path_method` and `insert_synthetic_opid_for_path_method`. -/
def normalizeKey (path method : Str) : Except RegError PathMethod :=
  match extract_params path with
  | some (params, normalized_path) => PathMethod.new normalized_path method (some params)
  | none => PathMethod.new path method none

/-- The `OperationIds` store: both `BTreeMap`s as association lists. -/
structure OperationIds where
  opid_to_path_method : List (Str × PathMethod)
  path_method_to_opid : List (PathMethod × Str)
deriving Repr, DecidableEq

/-- `OperationIds::default()`. -/
def OperationIds.empty : OperationIds := ⟨[], []⟩

/-- `OperationIds::opid_for_path_method`. -/
def OperationIds.opid_for_path_method (s : OperationIds) (path method : Str) : Option Str :=
  match normalizeKey path method with
  | .error _ => none
  | .ok key => alookup s.path_method_to_opid key

/-- `OperationIds::path_method_for_opid`. -/
def OperationIds.path_method_for_opid (s : OperationIds) (operation_id : Str) :
    Option (Str × Str) :=
  (alookup s.opid_to_path_method operation_id).map fun pm => (pm.path, pm.method)

/-- `OperationIds::insert_opid_with_path_method`. The Rust method takes
`&mut self`; it is modelled state-passing, returning the result together
with the post-state (on every failure the code returns before touching
either map, so the pre-state is returned there). -/
def OperationIds.insert_opid_with_path_method (s : OperationIds)
    (operation_id path method : Str) : Except RegError Unit × OperationIds :=
  match normalizeKey path method with
  | .error e => (.error e, s)
  | .ok key =>
    if (alookup s.opid_to_path_method operation_id).isSome then
      (.error (.duplicateId operation_id), s)
    else if (alookup s.path_method_to_opid key).isSome then
      (.error (.duplicateEndpoint key.path key.method), s)
    else
      (.ok (), ⟨(operation_id, key) :: s.opid_to_path_method,
                (key, operation_id) :: s.path_method_to_opid⟩)

/-- The candidate-generation `loop` of `insert_synthetic_opid_for_path_method`
with the `attempt` counter idealized as an unbounded `Nat`: try
`gen_operation_id` at `attempt`, `attempt + 1`, … until the candidate is not
a key of `opid_to_path_method`; `fuel` bounds the iterations modelled
(returning the current candidate unchecked when exhausted). In the source
`attempt` is a `u32`; `findCandidateU32` below models that faithfully, and
`findCandidateU32_agree` proves the two compute the same candidate — with the
fuel the insert passes never exhausted (`findCandidate_not_mem`) — whenever
the registry holds fewer than 2^32 IDs. Beyond that bound the release-mode
Rust loop can cycle forever (see `LoopDiverges` and `allCandidatesState`)
while this idealization still returns. -/
def OperationIds.findCandidate (s : OperationIds) (key : PathMethod) :
    Nat → Nat → Str
  | attempt, 0 => gen_operation_id key attempt
  | attempt, fuel + 1 =>
    let candidate := gen_operation_id key attempt
    if (alookup s.opid_to_path_method candidate).isSome then
      OperationIds.findCandidate s key (attempt + 1) fuel
    else candidate

/-- The candidate-generation `loop` exactly as compiled in release mode:
`attempt` is a `u32`, starting at 0 and wrapping modulo 2^32 when the
increment overflows (a debug build panics at that point instead). `fuel`
bounds the number of iterations modelled; `none` means the loop has not
terminated within `fuel` iterations, so divergence of the Rust loop is
`none` at every fuel. -/
def OperationIds.findCandidateU32 (s : OperationIds) (key : PathMethod) :
    Nat → Nat → Option Str
  | _, 0 => none
  | attempt, fuel + 1 =>
    let candidate := gen_operation_id key attempt
    if (alookup s.opid_to_path_method candidate).isSome then
      OperationIds.findCandidateU32 s key ((attempt + 1) % 4294967296) fuel
    else some candidate

/-- Divergence of the release-mode collision loop started at attempt 0: no
iteration bound suffices for it to return. -/
def LoopDiverges (s : OperationIds) (key : PathMethod) : Prop :=
  ∀ fuel, s.findCandidateU32 key 0 fuel = none

/-- A registry in which every one of the 2^32 candidate names the `u32`
attempt counter can ever produce for the key of `/bar GET` is already
assigned (here to the endpoint `/x GET`); the reverse map is empty, so that
key itself is not registered. -/
def allCandidatesState : OperationIds :=
  ⟨(List.range 4294967296).map
      (fun a => (gen_operation_id ⟨"/bar".data, "get".data, none⟩ a,
                 (⟨"/x".data, "get".data, none⟩ : PathMethod))), []⟩

/-- `OperationIds::insert_synthetic_opid_for_path_method`, state-passing
like `insert_opid_with_path_method`. -/
def OperationIds.insert_synthetic_opid_for_path_method (s : OperationIds)
    (path method : Str) : Except RegError Str × OperationIds :=
  match normalizeKey path method with
  | .error e => (.error e, s)
  | .ok key =>
    if (alookup s.path_method_to_opid key).isSome then
      (.error (.duplicateEndpoint key.path key.method), s)
    else
      let candidate := s.findCandidate key 0 (s.opid_to_path_method.length + 1)
      (.ok candidate, ⟨(candidate, key) :: s.opid_to_path_method,
                       (key, candidate) :: s.path_method_to_opid⟩)

/-- The states reachable from the empty registry by any sequence of
insertions, successful or failed (a failed call returns the unchanged
pre-state). -/
inductive Reachable : OperationIds → Prop where
  | empty : Reachable OperationIds.empty
  | expl (s : OperationIds) (id path method : Str) : Reachable s →
      Reachable (s.insert_opid_with_path_method id path method).2
  | synth (s : OperationIds) (path method : Str) : Reachable s →
      Reachable (s.insert_synthetic_opid_for_path_method path method).2

/-- The bijection invariant: the two maps are mutual inverses. -/
def RegInv (s : OperationIds) : Prop :=
  ∀ (id : Str) (key : PathMethod),
    alookup s.opid_to_path_method id = some key ↔
    alookup s.path_method_to_opid key = some id

/-- Every registered key was built by `normalizeKey`: its fields are
non-empty and a key without `params` has a path from which nothing is
extracted. -/
def KeysGood (s : OperationIds) : Prop :=
  ∀ (id : Str) (key : PathMethod), alookup s.opid_to_path_method id = some key →
    key.path ≠ [] ∧ key.method ≠ [] ∧
    (key.params = none → extract_params key.path = none)

/-- One `literal \x7bparam\x7d` segment of a well-formed parameterized path. -/
def seg (p : Str × Str) : Str := p.1 ++ '\x7b' :: (p.2 ++ ['\x7d'])

/-- A path assembled from parameter segments followed by trailing text. -/
def assemble (segs : List (Str × Str)) (tail : Str) : Str :=
  (segs.map seg).flatten ++ tail

/-- No brace characters occur in the string. -/
def braceFree (l : Str) : Prop := ∀ c ∈ l, c ≠ '\x7b' ∧ c ≠ '\x7d'

instance (l : Str) : Decidable (braceFree l) :=
  inferInstanceAs (Decidable (∀ c ∈ l, c ≠ '\x7b' ∧ c ≠ '\x7d'))

/-- The parameter names the scanner captures from assembled segments:
the non-empty ones, in order. -/
def segsParams : List (Str × Str) → List Str
  | [] => []
  | p :: ps => (if p.2 ≠ [] then [p.2] else []) ++ segsParams ps

/-- The normalized text the scanner produces for assembled segments:
each literal followed by the placeholder. -/
def segsClean : List (Str × Str) → Str
  | [] => []
  | p :: ps => p.1 ++ ['\x7b', '\x7d'] ++ segsClean ps

/-- The `_by_<param>` suffix block appended by `gen_operation_id`. -/
def bySuffix (ps : List Str) : Str :=
  (ps.map fun p => '_' :: 'b' :: 'y' :: '_' :: p.map rustToLower).flatten

/-- An ASCII letter or digit, as the specification words it. -/
def asciiIsAlphanumSpec (c : Char) : Bool :=
  (65 ≤ c.toNat && c.toNat ≤ 90) || (97 ≤ c.toNat && c.toNat ≤ 122) ||
  (48 ≤ c.toNat && c.toNat ≤ 57)

/-- ASCII lower-casing, as the specification words it. -/
def asciiToLowerSpec (c : Char) : Char :=
  if 65 ≤ c.toNat ∧ c.toNat ≤ 90 then Char.ofNat (c.toNat + 32) else c

/-- An ASCII digit, as the specification words it. -/
def asciiIsDigitSpec (c : Char) : Bool :=
  48 ≤ c.toNat && c.toNat ≤ 57

/-- The base-token computation exactly as the specification words it:
ASCII letters and digits kept, every other character replaced by `_`,
underscores stripped at both ends, ASCII lower-casing, and `n` prepended
when the result starts with an ASCII digit. -/
def baseTokenSpecAscii (path : Str) : Str :=
  let opid := (trimUnderscores (path.map fun c =>
    if asciiIsAlphanumSpec c then c else '_')).map asciiToLowerSpec
  match opid with
  | [] => []
  | c :: _ => if asciiIsDigitSpec c then 'n' :: opid else opid

theorem strSlice_self (l : Str) (a : Nat) : strSlice l a a = [] := by
  simp [strSlice]

theorem strSlice_extend (l : Str) (a i : Nat) (c : Char) (hai : a ≤ i)
    (hc : l[i]? = some c) : strSlice l a (i + 1) = strSlice l a i ++ [c] := by
  have h1 : i + 1 - a = (i - a) + 1 := by omega
  have h2 : (l.drop a)[i - a]? = some c := by
    rw [List.getElem?_drop]
    have : a + (i - a) = i := by omega
    rw [this]; exact hc
  simp [strSlice, h1, List.take_succ, h2]

theorem strSlice_to_end (l : Str) (a : Nat) : strSlice l a l.length = l.drop a := by
  apply List.take_of_length_le
  simp

theorem drop_split (l : Str) (a m : Nat) (h : a ≤ m) :
    l.drop a = strSlice l a m ++ l.drop m := by
  conv_lhs => rw [← List.take_append_drop (m - a) (l.drop a)]
  rw [List.drop_drop]
  congr 2
  omega

theorem rel_step (path : Str) (i : Nat) (c : Char) (S : EPState) (s : DState)
    (hrel : Rel path i S s) (hc : path[i]? = some c) :
    Rel path (i + 1) (epStep path S i c) (dStep s c) := by
  obtain ⟨hp, hcl, hinp, hfalse, htrue⟩ := hrel
  obtain ⟨hiL, -⟩ := List.getElem?_eq_some.mp hc
  cases hip : S.in_param with
  | false =>
    obtain ⟨hle, hlit⟩ := hfalse hip
    by_cases hcb : c = '\x7b'
    · subst hcb
      have hep : epStep path S i '\x7b' =
          { S with clean_path := S.clean_path ++ strSlice path S.last_end i ++ ['\x7b', '\x7d'],
                   in_param := true, param_start := i + 1 } := by
        simp [epStep, hip]
      have hds : dStep s '\x7b' =
          { s with clean_path := s.clean_path ++ s.lit ++ ['\x7b', '\x7d'],
                   inp := true, parm := [] } := by
        simp [dStep, hinp, hip]
      rw [Rel, hep, hds]
      dsimp only
      refine ⟨hp, ?_, rfl, ?_, ?_⟩
      · rw [hcl, hlit]
      · intro h; cases h
      · intro _
        exact ⟨by omega, by omega, by simpa using hc, by simpa using hlit,
          by simp [strSlice_self]⟩
    · have hep : epStep path S i c = S := by
        simp [epStep, hcb, hip]
      have hds : dStep s c = { s with lit := s.lit ++ [c] } := by
        simp [dStep, hcb, hinp, hip]
      rw [Rel, hep, hds]
      dsimp only
      refine ⟨hp, hcl, hinp, ?_, ?_⟩
      · intro _
        exact ⟨by omega, by rw [strSlice_extend path S.last_end i c hle hc, hlit]⟩
      · intro h; rw [h] at hip; cases hip
  | true =>
    obtain ⟨h1, h2, h3, h4, h5⟩ := htrue hip
    by_cases hcb : c = '\x7d'
    · subst hcb
      have hep : epStep path S i '\x7d' =
          { S with in_param := false,
                   params := if S.param_start < i then
                       S.params ++ [strSlice path S.param_start i] else S.params,
                   last_end := i + 1 } := by
        simp [epStep, hip]
      have hds : dStep s '\x7d' =
          { s with inp := false,
                   params := if s.parm ≠ [] then s.params ++ [s.parm] else s.params,
                   lit := [], parm := [] } := by
        simp [dStep, hinp, hip]
      rw [Rel, hep, hds]
      dsimp only
      have hcond : s.parm ≠ [] ↔ S.param_start < i := by
        rw [h5, Ne, ← List.length_eq_zero]
        simp only [strSlice, List.length_take, List.length_drop]
        omega
      refine ⟨?_, hcl, rfl, ?_, ?_⟩
      · by_cases hlt : S.param_start < i
        · rw [if_pos (hcond.mpr hlt), if_pos hlt, hp, h5]
        · rw [if_neg (fun hne => hlt (hcond.mp hne)), if_neg hlt, hp]
      · intro _
        exact ⟨by omega, by simp [strSlice_self]⟩
      · intro h; cases h
    · have hep : epStep path S i c = S := by
        simp [epStep, hcb, hip]
      have hds : dStep s c = { s with parm := s.parm ++ [c] } := by
        simp [dStep, hcb, hinp, hip]
      rw [Rel, hep, hds]
      dsimp only
      refine ⟨hp, hcl, hinp, ?_, ?_⟩
      · intro h; rw [h] at hip; cases hip
      · intro _
        exact ⟨h1, by omega, h3, h4,
          by rw [strSlice_extend path S.param_start i c h2 hc, h5]⟩

theorem rel_go (path : Str) : ∀ (cs : Str) (i : Nat) (S : EPState) (s : DState),
    path.drop i = cs → Rel path i S s →
    Rel path (i + cs.length) (epGo path S i cs) (dGo s cs) := by
  intro cs
  induction cs with
  | nil => intro i S s _ h; simpa using h
  | cons c cs ih =>
    intro i S s hdrop hrel
    have hc : path[i]? = some c := by
      have h0 : (path.drop i)[0]? = some c := by rw [hdrop]; simp
      rwa [List.getElem?_drop, Nat.add_zero] at h0
    have hdrop2 : path.drop (i + 1) = cs := by
      have := congrArg List.tail hdrop
      simpa [List.tail_drop] using this
    have hrec := ih (i + 1) (epStep path S i c) (dStep s c) hdrop2
      (rel_step path i c S s hrel hc)
    have harith : i + 1 + cs.length = i + (c :: cs).length := by
      simp only [List.length_cons]; omega
    rw [harith] at hrec
    simpa [epGo, dGo, List.foldl_cons] using hrec

theorem extract_params_eq_dExtract (path : Str) : extract_params path = dExtract path := by
  have h0 : Rel path 0 ⟨[], [], 0, false, 0⟩ ⟨[], [], [], false, []⟩ := by
    refine ⟨rfl, rfl, rfl, fun _ => ⟨Nat.le_refl 0, by simp [strSlice]⟩, fun h => by cases h⟩
  have hmain := rel_go path path 0 ⟨[], [], 0, false, 0⟩ ⟨[], [], [], false, []⟩ (by simp) h0
  simp only [Nat.zero_add] at hmain
  obtain ⟨hp, hcl, hinp, hfalse, htrue⟩ := hmain
  simp only [extract_params, dExtract]
  set Sf := epGo path ⟨[], [], 0, false, 0⟩ 0 path with hSf
  set sf := dGo ⟨[], [], [], false, []⟩ path with hsf
  have hclean : (if Sf.last_end < path.length then Sf.clean_path ++ path.drop Sf.last_end
      else Sf.clean_path) =
      sf.clean_path ++ (if sf.inp then sf.lit ++ '\x7b' :: sf.parm else sf.lit) := by
    cases hip : Sf.in_param with
    | false =>
      obtain ⟨hle, hlit⟩ := hfalse hip
      have hsfi : sf.inp = false := by rw [hinp, hip]
      rw [hsfi]
      simp only [Bool.false_eq_true, if_false]
      by_cases hlt : Sf.last_end < path.length
      · rw [if_pos hlt, hcl, hlit, strSlice_to_end]
      · rw [if_neg hlt, hcl]
        have hnil : sf.lit = [] := by
          rw [hlit]
          simp [strSlice, Nat.sub_eq_zero_of_le (Nat.le_of_not_lt hlt)]
        rw [hnil, List.append_nil]
    | true =>
      obtain ⟨h1, h2, h3, h4, h5⟩ := htrue hip
      obtain ⟨hps, hget⟩ := List.getElem?_eq_some.mp h3
      have hsfi : sf.inp = true := by rw [hinp, hip]
      rw [hsfi]
      simp only [eq_self_iff_true, if_true]
      have hlt : Sf.last_end < path.length := by omega
      rw [if_pos hlt, hcl, h4, h5, strSlice_to_end]
      rw [drop_split path Sf.last_end (Sf.param_start - 1) (by omega)]
      rw [List.drop_eq_getElem_cons hps, hget]
      have hpsa : Sf.param_start - 1 + 1 = Sf.param_start := by omega
      rw [hpsa]
  rw [hp, hclean]

theorem dGo_nil (s : DState) : dGo s [] = s := rfl

theorem dGo_cons (s : DState) (c : Char) (cs : Str) :
    dGo s (c :: cs) = dGo (dStep s c) cs := rfl

theorem dGo_append (s : DState) (a b : Str) : dGo s (a ++ b) = dGo (dGo s a) b :=
  List.foldl_append dStep s a b

theorem dGo_lit (chunk : Str) : ∀ (P : List Str) (C L M : Str), braceFree chunk →
    dGo ⟨P, C, L, false, M⟩ chunk = ⟨P, C, L ++ chunk, false, M⟩ := by
  induction chunk with
  | nil => intro P C L M _; simp [dGo_nil]
  | cons c cs ih =>
    intro P C L M h
    have hc := h c (by simp)
    have hstep : dStep ⟨P, C, L, false, M⟩ c = ⟨P, C, L ++ [c], false, M⟩ := by
      simp [dStep, hc.1, hc.2]
    rw [dGo_cons, hstep, ih P C (L ++ [c]) M (fun x hx => h x (by simp [hx]))]
    simp

theorem dGo_inparam (chunk : Str) : ∀ (P : List Str) (C L M : Str),
    (∀ c ∈ chunk, c ≠ '\x7d') →
    dGo ⟨P, C, L, true, M⟩ chunk = ⟨P, C, L, true, M ++ chunk⟩ := by
  induction chunk with
  | nil => intro P C L M _; simp [dGo_nil]
  | cons c cs ih =>
    intro P C L M h
    have hc := h c (by simp)
    have hstep : dStep ⟨P, C, L, true, M⟩ c = ⟨P, C, L, true, M ++ [c]⟩ := by
      simp [dStep, hc]
    rw [dGo_cons, hstep, ih P C L (M ++ [c]) (fun x hx => h x (by simp [hx]))]
    simp

theorem dStep_open (P : List Str) (C L M : Str) :
    dStep ⟨P, C, L, false, M⟩ '\x7b' = ⟨P, C ++ L ++ ['\x7b', '\x7d'], L, true, []⟩ := by
  simp [dStep]

theorem dStep_close (P : List Str) (C L M : Str) :
    dStep ⟨P, C, L, true, M⟩ '\x7d' =
      ⟨if M ≠ [] then P ++ [M] else P, C, [], false, []⟩ := by
  simp [dStep]

theorem dGo_seg (p : Str × Str) (P : List Str) (C M : Str)
    (hlit : braceFree p.1) (hparam : braceFree p.2) :
    dGo ⟨P, C, [], false, M⟩ (seg p) =
      ⟨if p.2 ≠ [] then P ++ [p.2] else P, C ++ p.1 ++ ['\x7b', '\x7d'], [], false, []⟩ := by
  obtain ⟨lit, param⟩ := p
  have h1 : seg (lit, param) = lit ++ (('\x7b' :: param) ++ ['\x7d']) := by
    simp [seg]
  rw [h1, dGo_append, dGo_lit lit P C [] M hlit, List.nil_append, dGo_append]
  rw [dGo_cons ⟨P, C, lit, false, M⟩ '\x7b' param, dStep_open,
    dGo_inparam param _ _ _ _ (fun c hc => (hparam c hc).2)]
  rw [dGo_cons _ '\x7d' [], dStep_close, dGo_nil]
  simp

theorem dGo_segs (segs : List (Str × Str)) : ∀ (P : List Str) (C : Str),
    (∀ p ∈ segs, braceFree p.1 ∧ braceFree p.2) →
    dGo ⟨P, C, [], false, []⟩ ((segs.map seg).flatten) =
      ⟨P ++ segsParams segs, C ++ segsClean segs, [], false, []⟩ := by
  induction segs with
  | nil => intro P C _; simp [dGo_nil, segsParams, segsClean]
  | cons p ps ih =>
    intro P C h
    obtain ⟨hp1, hp2⟩ := h p (by simp)
    simp only [List.map_cons, List.flatten_cons]
    rw [dGo_append, dGo_seg p P C [] hp1 hp2,
      ih _ _ (fun q hq => h q (by simp [hq]))]
    by_cases hemp : p.2 = []
    · simp [segsParams, segsClean, hemp, List.append_assoc]
    · simp [segsParams, segsClean, hemp, List.append_assoc]

theorem extract_assemble (segs : List (Str × Str)) (tail : Str)
    (hsegs : ∀ p ∈ segs, braceFree p.1 ∧ braceFree p.2) (htail : braceFree tail) :
    extract_params (assemble segs tail) =
      if segsParams segs = [] then none
      else some (segsParams segs, segsClean segs ++ tail) := by
  rw [extract_params_eq_dExtract]
  simp only [dExtract, assemble]
  rw [dGo_append, dGo_segs segs [] [] hsegs,
    dGo_lit tail _ _ _ _ htail]
  simp

theorem extract_assemble_open (segs : List (Str × Str)) (mid rest : Str)
    (hsegs : ∀ p ∈ segs, braceFree p.1 ∧ braceFree p.2) (hmid : braceFree mid)
    (hrest : ∀ c ∈ rest, c ≠ '\x7d') :
    extract_params (assemble segs (mid ++ '\x7b' :: rest)) =
      if segsParams segs = [] then none
      else some (segsParams segs,
        segsClean segs ++ mid ++ ['\x7b', '\x7d'] ++ mid ++ '\x7b' :: rest) := by
  rw [extract_params_eq_dExtract]
  simp only [dExtract, assemble]
  rw [dGo_append, dGo_segs segs [] [] hsegs, dGo_append,
    dGo_lit mid _ _ _ _ hmid,
    dGo_cons _ '\x7b' rest, dStep_open,
    dGo_inparam rest _ _ _ _ hrest]
  simp [List.append_assoc]

theorem segsParams_all_nonempty (segs : List (Str × Str))
    (h : ∀ p ∈ segs, p.2 ≠ []) : segsParams segs = segs.map Prod.snd := by
  induction segs with
  | nil => rfl
  | cons p ps ih =>
    rw [segsParams, if_pos (h p (by simp)), ih (fun q hq => h q (by simp [hq]))]
    simp

theorem segsParams_all_empty (segs : List (Str × Str))
    (h : ∀ p ∈ segs, p.2 = []) : segsParams segs = [] := by
  induction segs with
  | nil => rfl
  | cons p ps ih =>
    rw [segsParams, if_neg (by simpa using h p (by simp)), ih (fun q hq => h q (by simp [hq]))]
    simp

theorem segsParams_ne_nil (segs : List (Str × Str)) (p : Str × Str)
    (hmem : p ∈ segs) (hne : p.2 ≠ []) : segsParams segs ≠ [] := by
  induction segs with
  | nil => cases hmem
  | cons q qs ih =>
    rw [segsParams]
    rcases List.mem_cons.mp hmem with hq | hq
    · subst hq
      rw [if_pos hne]
      simp
    · intro hcontra
      rcases List.append_eq_nil.mp hcontra with ⟨-, h2⟩
      exact ih hq h2

theorem decParse_append_digit (l : Str) (c : Char) :
    decParse (l ++ [c]) = 10 * decParse l + decDigitVal c := by
  simp [decParse, List.foldl_append]

theorem decDigitVal_decDigit (d : Nat) (h : d < 10) : decDigitVal (decDigit d) = d := by
  interval_cases d <;> rfl

theorem decParse_natDecimalAux (fuel : Nat) : ∀ n, n ≤ fuel →
    decParse (natDecimalAux fuel n) = n := by
  induction fuel with
  | zero =>
    intro n hn
    interval_cases n
    rfl
  | succ fuel ih =>
    intro n hn
    by_cases hz : n = 0
    · subst hz; rfl
    · rw [natDecimalAux, if_neg hz, decParse_append_digit,
        ih (n / 10) (by omega),
        decDigitVal_decDigit (n % 10) (Nat.mod_lt n (by omega))]
      omega

theorem decParse_natDecimal (n : Nat) : decParse (natDecimal n) = n := by
  by_cases hz : n = 0
  · subst hz; rfl
  · rw [natDecimal, if_neg hz]
    exact decParse_natDecimalAux n n (Nat.le_refl n)

theorem natDecimal_inj (a b : Nat) (h : natDecimal a = natDecimal b) : a = b := by
  have h2 := congrArg decParse h
  rwa [decParse_natDecimal, decParse_natDecimal] at h2

theorem natDecimal_ne_nil (n : Nat) : natDecimal n ≠ [] := by
  intro h
  by_cases hz : n = 0
  · subst hz; simp [natDecimal] at h
  · have h2 := decParse_natDecimal n
    rw [h] at h2
    exact hz (by simpa [decParse] using h2.symm)

theorem by_foldl (ps : List Str) : ∀ (init : Str),
    ps.foldl (fun acc p => acc ++ ('_' :: 'b' :: 'y' :: '_' :: []) ++ p.map rustToLower) init =
      init ++ bySuffix ps := by
  induction ps with
  | nil => intro init; simp [bySuffix]
  | cons p ps ih =>
    intro init
    rw [List.foldl_cons, ih]
    simp [bySuffix, List.append_assoc]

theorem gen_factor (pm : PathMethod) (attempt : Nat) :
    gen_operation_id pm attempt =
      baseToken pm.path ++
        ((if attempt = 0 then '_' :: pm.method.map rustToLower
          else natDecimal attempt ++ '_' :: pm.method.map rustToLower) ++
         bySuffix (pm.params.getD [])) := by
  cases hps : pm.params with
  | none =>
    simp only [gen_operation_id, hps, Option.getD_none]
    by_cases ha : attempt = 0 <;>
      simp [ha, bySuffix, List.append_assoc]
  | some ps =>
    simp only [gen_operation_id, hps, Option.getD_some]
    rw [by_foldl]
    by_cases ha : attempt = 0 <;>
      simp [ha, List.append_assoc]

theorem gen_operation_id_inj (pm : PathMethod) (i j : Nat)
    (h : gen_operation_id pm i = gen_operation_id pm j) : i = j := by
  rw [gen_factor, gen_factor] at h
  have h2 := List.append_cancel_left h
  have h3 := List.append_cancel_right h2
  by_cases hi : i = 0 <;> by_cases hj : j = 0
  · omega
  · exfalso
    rw [if_pos hi, if_neg hj] at h3
    have hlen := congrArg List.length h3
    simp only [List.length_cons, List.length_append] at hlen
    exact natDecimal_ne_nil j (List.length_eq_zero.mp (by omega))
  · exfalso
    rw [if_neg hi, if_pos hj] at h3
    have hlen := congrArg List.length h3
    simp only [List.length_cons, List.length_append] at hlen
    exact natDecimal_ne_nil i (List.length_eq_zero.mp (by omega))
  · rw [if_neg hi, if_neg hj] at h3
    exact natDecimal_inj i j (List.append_cancel_right h3)

theorem alookup_mem_keys {α β : Type} [DecidableEq α] (l : List (α × β)) (a : α) (b : β)
    (h : alookup l a = some b) : a ∈ l.map Prod.fst := by
  induction l with
  | nil => simp [alookup] at h
  | cons kv rest ih =>
    obtain ⟨k, v⟩ := kv
    rw [alookup] at h
    by_cases hk : k = a
    · subst hk; simp
    · rw [if_neg hk] at h
      simp only [List.map_cons, List.mem_cons]
      exact Or.inr (ih h)

theorem findCandidate_not_mem (s : OperationIds) (key : PathMethod) :
    ∀ (fuel attempt : Nat),
    (∃ j, j < fuel ∧ alookup s.opid_to_path_method (gen_operation_id key (attempt + j)) = none) →
    alookup s.opid_to_path_method (s.findCandidate key attempt fuel) = none := by
  intro fuel
  induction fuel with
  | zero =>
    intro attempt h
    obtain ⟨j, hj, -⟩ := h
    omega
  | succ fuel ih =>
    intro attempt h
    obtain ⟨j, hj, hnone⟩ := h
    simp only [OperationIds.findCandidate]
    by_cases hs : (alookup s.opid_to_path_method (gen_operation_id key attempt)).isSome
    · rw [if_pos hs]
      apply ih (attempt + 1)
      have hj0 : j ≠ 0 := by
        intro h0
        subst h0
        rw [Nat.add_zero] at hnone
        rw [hnone] at hs
        simp at hs
      exact ⟨j - 1, by omega, by
        rw [show attempt + 1 + (j - 1) = attempt + j by omega]; exact hnone⟩
    · rw [if_neg hs]
      exact Option.not_isSome_iff_eq_none.mp hs

theorem exists_free_attempt (s : OperationIds) (key : PathMethod) (attempt : Nat) :
    ∃ j, j < s.opid_to_path_method.length + 1 ∧
      alookup s.opid_to_path_method (gen_operation_id key (attempt + j)) = none := by
  by_contra hall
  push_neg at hall
  set n := s.opid_to_path_method.length with hn
  have hmem : ∀ j : Fin (n + 1), gen_operation_id key (attempt + j.1) ∈
      s.opid_to_path_method.map Prod.fst := by
    intro j
    have hne := hall j.1 j.2
    cases hcase : alookup s.opid_to_path_method (gen_operation_id key (attempt + j.1)) with
    | none => exact absurd hcase hne
    | some b => exact alookup_mem_keys _ _ _ hcase
  have hinj : Function.Injective (fun j : Fin (n + 1) => gen_operation_id key (attempt + j.1)) := by
    intro a b hab
    have h2 := gen_operation_id_inj key _ _ hab
    exact Fin.ext (by omega)
  have hcard : (Finset.univ.image
      (fun j : Fin (n + 1) => gen_operation_id key (attempt + j.1))).card = n + 1 := by
    rw [Finset.card_image_of_injective _ hinj, Finset.card_univ, Fintype.card_fin]
  have hsub : Finset.univ.image
      (fun j : Fin (n + 1) => gen_operation_id key (attempt + j.1)) ⊆
      (s.opid_to_path_method.map Prod.fst).toFinset := by
    intro x hx
    simp only [Finset.mem_image] at hx
    obtain ⟨j, -, hj⟩ := hx
    rw [← hj]
    exact List.mem_toFinset.mpr (hmem j)
  have hle := Finset.card_le_card hsub
  have hlen : (s.opid_to_path_method.map Prod.fst).toFinset.card ≤ n := by
    calc (s.opid_to_path_method.map Prod.fst).toFinset.card
        ≤ (s.opid_to_path_method.map Prod.fst).length := List.toFinset_card_le _
      _ = n := by simp [hn]
  omega

theorem alookup_isSome_of_mem_keys {α β : Type} [DecidableEq α] (l : List (α × β)) (a : α)
    (h : a ∈ l.map Prod.fst) : (alookup l a).isSome := by
  induction l with
  | nil => simp at h
  | cons kv rest ih =>
    obtain ⟨k, v⟩ := kv
    rw [alookup]
    by_cases hk : k = a
    · rw [if_pos hk]
      rfl
    · rw [if_neg hk]
      apply ih
      simp only [List.map_cons, List.mem_cons] at h
      rcases h with h | h
      · exact absurd h.symm hk
      · exact h

theorem findCandidateU32_none_of_all (s : OperationIds) (key : PathMethod)
    (hall : ∀ a, a < 4294967296 →
      (alookup s.opid_to_path_method (gen_operation_id key a)).isSome) :
    ∀ (fuel attempt : Nat), attempt < 4294967296 →
      s.findCandidateU32 key attempt fuel = none := by
  intro fuel
  induction fuel with
  | zero =>
    intro attempt _
    rfl
  | succ fuel ih =>
    intro attempt hlt
    simp only [OperationIds.findCandidateU32]
    rw [if_pos (hall attempt hlt)]
    exact ih _ (Nat.mod_lt _ (by omega))

theorem allCandidatesState_diverges :
    LoopDiverges allCandidatesState ⟨"/bar".data, "get".data, none⟩ := by
  intro fuel
  apply findCandidateU32_none_of_all
  · intro a ha
    apply alookup_isSome_of_mem_keys
    simp only [allCandidatesState, List.map_map]
    exact List.mem_map.mpr ⟨a, List.mem_range.mpr ha, rfl⟩
  · decide

theorem findCandidateU32_agree (s : OperationIds) (key : PathMethod) :
    ∀ (fuel attempt : Nat), attempt + fuel ≤ 4294967296 →
    (∃ j, j < fuel ∧
      alookup s.opid_to_path_method (gen_operation_id key (attempt + j)) = none) →
    s.findCandidateU32 key attempt fuel = some (s.findCandidate key attempt fuel) := by
  intro fuel
  induction fuel with
  | zero =>
    intro attempt _ h
    obtain ⟨j, hj, -⟩ := h
    omega
  | succ fuel ih =>
    intro attempt hle h
    obtain ⟨j, hj, hnone⟩ := h
    simp only [OperationIds.findCandidateU32, OperationIds.findCandidate]
    by_cases hs : (alookup s.opid_to_path_method (gen_operation_id key attempt)).isSome
    · rw [if_pos hs, if_pos hs]
      have hj0 : j ≠ 0 := by
        intro h0
        subst h0
        rw [Nat.add_zero] at hnone
        rw [hnone] at hs
        simp at hs
      have hfuel : 1 ≤ fuel := by omega
      have hmod : (attempt + 1) % 4294967296 = attempt + 1 :=
        Nat.mod_eq_of_lt (by omega)
      rw [hmod]
      exact ih (attempt + 1) (by omega) ⟨j - 1, by omega, by
        rw [show attempt + 1 + (j - 1) = attempt + j by omega]
        exact hnone⟩
    · rw [if_neg hs, if_neg hs]

theorem regInv_insert (fwd : List (Str × PathMethod)) (rev : List (PathMethod × Str))
    (id : Str) (key : PathMethod)
    (hInv : RegInv ⟨fwd, rev⟩) (hf : alookup fwd id = none) (hr : alookup rev key = none) :
    RegInv ⟨(id, key) :: fwd, (key, id) :: rev⟩ := by
  intro id2 key2
  show (if id = id2 then some key else alookup fwd id2) = some key2 ↔
    (if key = key2 then some id else alookup rev key2) = some id2
  by_cases h1 : id = id2 <;> by_cases h2 : key = key2
  · subst h1; subst h2
    rw [if_pos rfl, if_pos rfl]
    exact ⟨fun _ => rfl, fun _ => rfl⟩
  · subst h1
    rw [if_pos rfl, if_neg h2]
    constructor
    · intro hk
      exact absurd (Option.some.inj hk) h2
    · intro hk
      have h3 := (hInv id key2).mpr hk
      rw [hf] at h3
      cases h3
  · subst h2
    rw [if_neg h1, if_pos rfl]
    constructor
    · intro hk
      have h3 := (hInv id2 key).mp hk
      rw [hr] at h3
      cases h3
    · intro hk
      exact absurd (Option.some.inj hk) h1
  · rw [if_neg h1, if_neg h2]
    exact hInv id2 key2

theorem keysGood_insert (fwd : List (Str × PathMethod)) (rev rev2 : List (PathMethod × Str))
    (id : Str) (key : PathMethod) (hg : KeysGood ⟨fwd, rev⟩)
    (hkey : key.path ≠ [] ∧ key.method ≠ [] ∧
      (key.params = none → extract_params key.path = none)) :
    KeysGood ⟨(id, key) :: fwd, rev2⟩ := by
  intro id2 key2 h
  rw [show alookup ((id, key) :: fwd) id2 =
    (if id = id2 then some key else alookup fwd id2) from rfl] at h
  by_cases h1 : id = id2
  · rw [if_pos h1] at h
    rw [← Option.some.inj h]
    exact hkey
  · rw [if_neg h1] at h
    exact hg id2 key2 h

theorem PathMethod_new_ok (path method : Str) (params : Option (List Str)) (key : PathMethod)
    (h : PathMethod.new path method params = .ok key) :
    key = ⟨path, method, params⟩ ∧ path ≠ [] ∧ method ≠ [] := by
  unfold PathMethod.new at h
  split at h
  · cases h
  · next hcond =>
    push_neg at hcond
    injection h with h2
    exact ⟨h2.symm, hcond.1, hcond.2⟩

theorem normalizeKey_ok (path method : Str) (key : PathMethod)
    (h : normalizeKey path method = .ok key) :
    key.path ≠ [] ∧ key.method ≠ [] ∧
      (key.params = none → extract_params key.path = none) := by
  unfold normalizeKey at h
  cases hex : extract_params path with
  | none =>
    rw [hex] at h
    obtain ⟨hk, h1, h2⟩ := PathMethod_new_ok path method none key h
    subst hk
    exact ⟨h1, h2, fun _ => hex⟩
  | some pr =>
    obtain ⟨ps, np⟩ := pr
    rw [hex] at h
    obtain ⟨hk, h1, h2⟩ := PathMethod_new_ok np method (some ps) key h
    subst hk
    exact ⟨h1, h2, fun hnone => absurd hnone (by simp)⟩

theorem reachable_inv (s : OperationIds) (h : Reachable s) : RegInv s ∧ KeysGood s := by
  induction h with
  | empty =>
    constructor
    · intro id key
      constructor <;> intro hk <;> cases hk
    · intro id key hk
      cases hk
  | expl s id path method hs ih =>
    obtain ⟨hInv, hGood⟩ := ih
    cases hnk : normalizeKey path method with
    | error e =>
      simp only [OperationIds.insert_opid_with_path_method, hnk]
      exact ⟨hInv, hGood⟩
    | ok key =>
      by_cases h1 : (alookup s.opid_to_path_method id).isSome
      · simp only [OperationIds.insert_opid_with_path_method, hnk, if_pos h1]
        exact ⟨hInv, hGood⟩
      · by_cases h2 : (alookup s.path_method_to_opid key).isSome
        · simp only [OperationIds.insert_opid_with_path_method, hnk, if_neg h1, if_pos h2]
          exact ⟨hInv, hGood⟩
        · simp only [OperationIds.insert_opid_with_path_method, hnk, if_neg h1, if_neg h2]
          constructor
          · exact regInv_insert s.opid_to_path_method s.path_method_to_opid id key hInv
              (Option.not_isSome_iff_eq_none.mp h1) (Option.not_isSome_iff_eq_none.mp h2)
          · exact keysGood_insert s.opid_to_path_method s.path_method_to_opid _ id key hGood
              (normalizeKey_ok path method key hnk)
  | synth s path method hs ih =>
    obtain ⟨hInv, hGood⟩ := ih
    cases hnk : normalizeKey path method with
    | error e =>
      simp only [OperationIds.insert_synthetic_opid_for_path_method, hnk]
      exact ⟨hInv, hGood⟩
    | ok key =>
      by_cases h2 : (alookup s.path_method_to_opid key).isSome
      · simp only [OperationIds.insert_synthetic_opid_for_path_method, hnk, if_pos h2]
        exact ⟨hInv, hGood⟩
      · simp only [OperationIds.insert_synthetic_opid_for_path_method, hnk, if_neg h2]
        have hfree : alookup s.opid_to_path_method
            (s.findCandidate key 0 (s.opid_to_path_method.length + 1)) = none := by
          apply findCandidate_not_mem
          simpa using exists_free_attempt s key 0
        constructor
        · exact regInv_insert s.opid_to_path_method s.path_method_to_opid _ key hInv
            hfree (Option.not_isSome_iff_eq_none.mp h2)
        · exact keysGood_insert s.opid_to_path_method s.path_method_to_opid _ _ key hGood
            (normalizeKey_ok path method key hnk)

theorem toNat_ofNat_valid (m : Nat) (h : m < 55296) : (Char.ofNat m).toNat = m := by
  rw [Char.ofNat, dif_pos (Or.inl h)]
  rfl

theorem rust_alnum_ascii (c : Char) (h : c.toNat < 128) :
    rustIsAlphanumeric c = asciiIsAlphanumSpec c := by
  rw [Bool.eq_iff_iff]
  simp only [rustIsAlphanumeric, rustIsAlphabetic, rustIsNumeric, asciiIsAlphanumSpec,
    Bool.or_eq_true, Bool.and_eq_true, decide_eq_true_eq, beq_iff_eq]
  omega

theorem rust_numeric_ascii (c : Char) (h : c.toNat < 128) :
    rustIsNumeric c = asciiIsDigitSpec c := by
  rw [Bool.eq_iff_iff]
  simp only [rustIsNumeric, asciiIsDigitSpec, Bool.or_eq_true, Bool.and_eq_true,
    decide_eq_true_eq, beq_iff_eq]
  omega

theorem rust_lower_ascii (c : Char) (h : c.toNat < 128) :
    rustToLower c = asciiToLowerSpec c := by
  unfold rustToLower asciiToLowerSpec
  by_cases h1 : 65 ≤ c.toNat ∧ c.toNat ≤ 90
  · rw [if_pos h1, if_pos h1]
  · rw [if_neg h1, if_neg h1, if_neg (by omega)]

theorem mem_trimUnderscores (l : Str) (x : Char) (h : x ∈ trimUnderscores l) : x ∈ l := by
  unfold trimUnderscores at h
  rw [List.mem_reverse] at h
  have h2 := (List.dropWhile_sublist _).subset h
  rw [List.mem_reverse] at h2
  exact (List.dropWhile_sublist _).subset h2

theorem dGo_clean_ne (chunk : Str) : ∀ (s : DState),
    ((s.params ≠ [] ∨ s.inp = true) → s.clean_path ≠ []) →
    ((dGo s chunk).params ≠ [] ∨ (dGo s chunk).inp = true) →
    (dGo s chunk).clean_path ≠ [] := by
  induction chunk with
  | nil => intro s h; exact h
  | cons c cs ih =>
    intro s h
    rw [dGo_cons]
    apply ih
    intro hpre
    unfold dStep at hpre ⊢
    by_cases hb1 : c = '\x7b' ∧ ¬ s.inp
    · rw [if_pos hb1]
      simp
    · rw [if_neg hb1] at hpre ⊢
      by_cases hb2 : c = '\x7d' ∧ s.inp
      · rw [if_pos hb2] at hpre ⊢
        exact h (Or.inr hb2.2)
      · rw [if_neg hb2] at hpre ⊢
        by_cases hb3 : s.inp
        · rw [if_pos hb3] at hpre ⊢
          exact h (Or.inr hb3)
        · rw [if_neg hb3] at hpre ⊢
          exact h hpre

theorem extract_params_some_clean_ne (path : Str) (ps : List Str) (clean : Str)
    (h : extract_params path = some (ps, clean)) : clean ≠ [] := by
  rw [extract_params_eq_dExtract] at h
  simp only [dExtract] at h
  set sf := dGo ⟨[], [], [], false, []⟩ path with hsf
  by_cases hp : sf.params = []
  · rw [if_pos hp] at h
    cases h
  · rw [if_neg hp] at h
    injection h with h2
    have hcl : sf.clean_path ≠ [] := by
      apply dGo_clean_ne path ⟨[], [], [], false, []⟩
      · intro hpre
        rcases hpre with h3 | h3
        · exact absurd rfl h3
        · cases h3
      · exact Or.inl hp
    have h3 : clean = sf.clean_path ++ (if sf.inp then sf.lit ++ '\x7b' :: sf.parm
        else sf.lit) := (Prod.mk.injEq _ _ _ _ ▸ h2).2.symm
    rw [h3]
    intro hcontra
    exact hcl (List.append_eq_nil.mp hcontra).1

theorem normalizeKey_ok_of_ne (path method : Str) (hp : path ≠ []) (hm : method ≠ []) :
    ∃ key, normalizeKey path method = .ok key := by
  unfold normalizeKey
  cases hex : extract_params path with
  | none =>
    refine ⟨⟨path, method, none⟩, ?_⟩
    unfold PathMethod.new
    rw [if_neg (not_or.mpr ⟨hp, hm⟩)]
  | some pr =>
    obtain ⟨ps, np⟩ := pr
    have hnp := extract_params_some_clean_ne path ps np hex
    refine ⟨⟨np, method, some ps⟩, ?_⟩
    dsimp only
    unfold PathMethod.new
    rw [if_neg (not_or.mpr ⟨hnp, hm⟩)]

/-- C1 (counterexample): the round-trip fails as stated. Registering the
explicit ID `x` for path `/foo/\x7bbar\x7d` and method `get` succeeds; the
forward lookup returns the *normalized* path `/foo/\x7b\x7d`, and looking that
pair up again returns `none` — not the original ID — because re-normalizing
the already-normalized path captures no parameters, so the reconstructed key
has no `params` and misses the stored key. -/
theorem c1_registry_roundtrip_cex :
    (OperationIds.empty.insert_opid_with_path_method "x".data
        "/foo/\x7bbar\x7d".data "get".data).1 = .ok () ∧
    ((OperationIds.empty.insert_opid_with_path_method "x".data
        "/foo/\x7bbar\x7d".data "get".data).2).path_method_for_opid "x".data =
      some ("/foo/\x7b\x7d".data, "get".data) ∧
    ((OperationIds.empty.insert_opid_with_path_method "x".data
        "/foo/\x7bbar\x7d".data "get".data).2).opid_for_path_method
      "/foo/\x7b\x7d".data "get".data = none := by
  decide

/-- C1 (amended): in every reachable registry state, for every registered
operation ID whose stored key has no captured parameters,
`path_method_for_opid` returns the stored (path, method) and
`opid_for_path_method` on that pair returns the original ID. For keys that
carry parameters the round-trip fails (see the counterexample). -/
theorem c1_registry_roundtrip (s : OperationIds) (h : Reachable s) (id : Str)
    (key : PathMethod) (hf : alookup s.opid_to_path_method id = some key)
    (hp : key.params = none) :
    s.path_method_for_opid id = some (key.path, key.method) ∧
    s.opid_for_path_method key.path key.method = some id := by
  obtain ⟨hInv, hGood⟩ := reachable_inv s h
  obtain ⟨hpne, hmne, hnone⟩ := hGood id key hf
  constructor
  · simp [OperationIds.path_method_for_opid, hf]
  · have hnk : normalizeKey key.path key.method = .ok key := by
      unfold normalizeKey
      rw [hnone hp]
      dsimp only
      unfold PathMethod.new
      rw [if_neg (not_or.mpr ⟨hpne, hmne⟩), ← hp]
    unfold OperationIds.opid_for_path_method
    rw [hnk]
    exact (hInv id key).mp hf

/-- C1 witness: a concrete reachable state with a parameterless key on
which the amended round-trip is evaluated. -/
theorem c1_registry_roundtrip_witness :
    (OperationIds.empty.insert_opid_with_path_method "foo_get".data "/foo".data
        "get".data).2.path_method_for_opid "foo_get".data =
      some ("/foo".data, "get".data) ∧
    (OperationIds.empty.insert_opid_with_path_method "foo_get".data "/foo".data
        "get".data).2.opid_for_path_method "/foo".data "get".data =
      some "foo_get".data :=
  c1_registry_roundtrip _
    (Reachable.expl OperationIds.empty "foo_get".data "/foo".data "get".data Reachable.empty)
    "foo_get".data ⟨"/foo".data, "get".data, none⟩ (by decide) rfl

/-- C2: in every state reachable from the empty registry by insertions
(successful or failed), the two maps are mutual inverses: `(id, key)` is an
entry of `opid_to_path_method` exactly when `(key, id)` is an entry of
`path_method_to_opid`. -/
theorem c2_registry_bijection (s : OperationIds) (h : Reachable s) (id : Str)
    (key : PathMethod) :
    alookup s.opid_to_path_method id = some key ↔
    alookup s.path_method_to_opid key = some id :=
  (reachable_inv s h).1 id key

/-- C2 witness: the bijection evaluated in a concrete reachable state. -/
theorem c2_registry_bijection_witness :
    alookup (OperationIds.empty.insert_opid_with_path_method "a".data "/p".data
        "get".data).2.opid_to_path_method "a".data =
      some ⟨"/p".data, "get".data, none⟩ ↔
    alookup (OperationIds.empty.insert_opid_with_path_method "a".data "/p".data
        "get".data).2.path_method_to_opid ⟨"/p".data, "get".data, none⟩ =
      some "a".data :=
  c2_registry_bijection _
    (Reachable.expl OperationIds.empty "a".data "/p".data "get".data Reachable.empty)
    "a".data ⟨"/p".data, "get".data, none⟩

/-- C3 (counterexample): the claim as stated — termination for *every*
registry state — is false of the program, whose attempt counter is a `u32`.
In `allCandidatesState` the path and method of `/bar GET` are non-empty and
its normalized key is not registered, yet every candidate the wrapping
counter can ever produce is already assigned, so the release-mode collision
loop cycles through all 2^32 attempt values forever and never reaches a free
candidate (a debug build panics when the counter wraps). -/
theorem c3_synthetic_terminates_cex :
    normalizeKey "/bar".data "get".data =
      .ok ⟨"/bar".data, "get".data, none⟩ ∧
    alookup allCandidatesState.path_method_to_opid
      ⟨"/bar".data, "get".data, none⟩ = none ∧
    LoopDiverges allCandidatesState ⟨"/bar".data, "get".data, none⟩ :=
  ⟨by decide, rfl, allCandidatesState_diverges⟩

/-- C3 (amended): for every registry holding fewer than 2^32 assigned IDs —
within the range of the `u32` attempt counter; without this bound the claim
fails, see the counterexample — and every non-empty path and method whose
normalized key is not registered, the collision loop with the wrapping `u32`
attempt counter terminates: starting at attempt 0 it reaches, within
`length + 1` iterations, a candidate not already assigned, which is inserted
into both maps and returned; and in every reachable state no two endpoint
keys hold the same registered ID. -/
theorem c3_synthetic_terminates :
    (∀ (s : OperationIds) (path method : Str),
      s.opid_to_path_method.length + 1 ≤ 4294967296 →
      path ≠ [] → method ≠ [] →
      (∀ key, normalizeKey path method = .ok key →
        alookup s.path_method_to_opid key = none) →
      ∃ key candidate,
        normalizeKey path method = .ok key ∧
        s.findCandidateU32 key 0 (s.opid_to_path_method.length + 1) = some candidate ∧
        alookup s.opid_to_path_method candidate = none ∧
        s.insert_synthetic_opid_for_path_method path method =
          (.ok candidate, ⟨(candidate, key) :: s.opid_to_path_method,
                           (key, candidate) :: s.path_method_to_opid⟩)) ∧
    (∀ (s : OperationIds), Reachable s → ∀ (k1 k2 : PathMethod) (id : Str),
      alookup s.path_method_to_opid k1 = some id →
      alookup s.path_method_to_opid k2 = some id → k1 = k2) := by
  constructor
  · intro s path method hbound hp hm hfree
    obtain ⟨key, hnk⟩ := normalizeKey_ok_of_ne path method hp hm
    have h2 : alookup s.path_method_to_opid key = none := hfree key hnk
    have hex : ∃ j, j < s.opid_to_path_method.length + 1 ∧
        alookup s.opid_to_path_method (gen_operation_id key (0 + j)) = none :=
      exists_free_attempt s key 0
    have hcand : alookup s.opid_to_path_method
        (s.findCandidate key 0 (s.opid_to_path_method.length + 1)) = none := by
      apply findCandidate_not_mem
      exact hex
    have hu32 : s.findCandidateU32 key 0 (s.opid_to_path_method.length + 1) =
        some (s.findCandidate key 0 (s.opid_to_path_method.length + 1)) :=
      findCandidateU32_agree s key (s.opid_to_path_method.length + 1) 0
        (by omega) hex
    refine ⟨key, s.findCandidate key 0 (s.opid_to_path_method.length + 1),
      hnk, hu32, hcand, ?_⟩
    simp only [OperationIds.insert_synthetic_opid_for_path_method, hnk]
    rw [if_neg (by simp [h2])]
  · intro s hreach k1 k2 id h1 h2
    have hInv := (reachable_inv s hreach).1
    have hf1 := (hInv id k1).mpr h1
    have hf2 := (hInv id k2).mpr h2
    rw [hf1] at hf2
    exact Option.some.inj hf2

/-- C3 witness: the synthetic insertion of `/bar GET` into the empty
registry (one iteration of the u32 loop), and the no-duplicate-ID fact
evaluated in the resulting state. -/
theorem c3_synthetic_terminates_witness :
    (∃ key candidate,
      normalizeKey "/bar".data "get".data = .ok key ∧
      OperationIds.empty.findCandidateU32 key 0 1 = some candidate ∧
      alookup OperationIds.empty.opid_to_path_method candidate = none ∧
      OperationIds.empty.insert_synthetic_opid_for_path_method "/bar".data "get".data =
        (.ok candidate, ⟨(candidate, key) :: OperationIds.empty.opid_to_path_method,
                         (key, candidate) :: OperationIds.empty.path_method_to_opid⟩)) ∧
    (⟨"/bar".data, "get".data, none⟩ : PathMethod) = ⟨"/bar".data, "get".data, none⟩ := by
  constructor
  · exact c3_synthetic_terminates.1 OperationIds.empty "/bar".data "get".data
      (by decide) (by decide) (by decide) (fun key hk => rfl)
  · exact c3_synthetic_terminates.2 _
      (Reachable.synth OperationIds.empty "/bar".data "get".data Reachable.empty)
      ⟨"/bar".data, "get".data, none⟩ ⟨"/bar".data, "get".data, none⟩ "bar_get".data
      (by decide) (by decide)

/-- C4: for every endpoint key and attempt number, the generated candidate
is the base token, then (for attempt 0) `_` and the lower-cased method or
(for positive attempts) the decimal attempt digits directly followed by `_`
and the lower-cased method, then one `_by_<lower-cased param>` suffix per
captured parameter in stored order; in particular `/foo/bar` with `get`
yields `foo_bar_get` at attempt 0 and `foo_bar1_get` at attempt 1. -/
theorem c4_synthetic_id_format :
    (∀ (pm : PathMethod) (attempt : Nat),
      gen_operation_id pm attempt =
        baseToken pm.path ++
          ((if attempt = 0 then '_' :: pm.method.map rustToLower
            else natDecimal attempt ++ '_' :: pm.method.map rustToLower) ++
           ((pm.params.getD []).map
             fun p => '_' :: 'b' :: 'y' :: '_' :: p.map rustToLower).flatten)) ∧
    gen_operation_id ⟨"/foo/bar".data, "get".data, none⟩ 0 = "foo_bar_get".data ∧
    gen_operation_id ⟨"/foo/bar".data, "get".data, none⟩ 1 = "foo_bar1_get".data := by
  refine ⟨?_, by decide, by decide⟩
  intro pm attempt
  rw [gen_factor]
  rfl

/-- C5 (counterexample): the claim's ASCII rule disagrees with the code on
the path `/é`: `é` (U+00E9) is alphanumeric for Rust `char::is_alphanumeric`,
so the code keeps it — the base token is `é`, not the empty token the ASCII
rule produces. -/
theorem c5_base_token_cex :
    baseToken "/é".data = ['é'] ∧
    baseTokenSpecAscii "/é".data = [] ∧
    baseToken "/é".data ≠ baseTokenSpecAscii "/é".data ∧
    gen_operation_id ⟨"/é".data, "get".data, none⟩ 0 = 'é' :: "_get".data := by
  decide

/-- C5 (amended): for paths consisting of ASCII characters the base token is
computed exactly as the claim words it (non-alphanumerics to `_`, strip edge
underscores, lower-case, prepend `n` before a leading digit); on non-ASCII
paths the code uses Unicode `char::is_alphanumeric` instead of the ASCII
rule, see the counterexample. -/
theorem c5_base_token_ascii (path : Str) (h : ∀ c ∈ path, c.toNat < 128) :
    baseToken path = baseTokenSpecAscii path := by
  simp only [baseToken, baseTokenSpecAscii]
  have hmap : (path.map fun c => if rustIsAlphanumeric c then c else '_') =
      path.map fun c => if asciiIsAlphanumSpec c then c else '_' :=
    List.map_congr_left fun c hc => by rw [rust_alnum_ascii c (h c hc)]
  rw [hmap]
  have hascii : ∀ x ∈ trimUnderscores (path.map fun c =>
      if asciiIsAlphanumSpec c then c else '_'), x.toNat < 128 := by
    intro x hx
    obtain ⟨c, hc, hcx⟩ := List.mem_map.mp (mem_trimUnderscores _ _ hx)
    by_cases hb : asciiIsAlphanumSpec c
    · rw [if_pos hb] at hcx
      rw [← hcx]
      exact h c hc
    · rw [if_neg hb] at hcx
      rw [← hcx]
      decide
  have hmap2 : (trimUnderscores (path.map fun c =>
        if asciiIsAlphanumSpec c then c else '_')).map rustToLower =
      (trimUnderscores (path.map fun c =>
        if asciiIsAlphanumSpec c then c else '_')).map asciiToLowerSpec :=
    List.map_congr_left fun x hx => rust_lower_ascii x (hascii x hx)
  rw [hmap2]
  cases hL : (trimUnderscores (path.map fun c =>
      if asciiIsAlphanumSpec c then c else '_')).map asciiToLowerSpec with
  | nil => rfl
  | cons c0 rest =>
    dsimp only
    have hc0 : c0.toNat < 128 := by
      have hmem : c0 ∈ (trimUnderscores (path.map fun c =>
          if asciiIsAlphanumSpec c then c else '_')).map asciiToLowerSpec := by
        rw [hL]
        exact List.mem_cons_self _ _
      obtain ⟨x, hx, hxc⟩ := List.mem_map.mp hmem
      rw [← hxc]
      unfold asciiToLowerSpec
      by_cases hb : 65 ≤ x.toNat ∧ x.toNat ≤ 90
      · rw [if_pos hb, toNat_ofNat_valid _ (by omega)]
        omega
      · rw [if_neg hb]
        exact hascii x hx
    rw [rust_numeric_ascii c0 hc0]

/-- C5 witness: the ASCII agreement evaluated on a concrete path with a
punctuation character, a digit and letters. -/
theorem c5_base_token_ascii_witness :
    baseToken "/Foo9.json".data = baseTokenSpecAscii "/Foo9.json".data :=
  c5_base_token_ascii "/Foo9.json".data (by decide)

/-- C6 (counterexample): re-registering the very same (id, endpoint) pair —
the id `a` is assigned to the *same* key being inserted, not a different
one — fails with the duplicate-ID error, where the claim predicts the
duplicate-endpoint error. -/
theorem c6_error_discrimination_cex :
    alookup (OperationIds.empty.insert_opid_with_path_method "a".data "/p".data
        "get".data).2.opid_to_path_method "a".data =
      some ⟨"/p".data, "get".data, none⟩ ∧
    normalizeKey "/p".data "get".data = .ok ⟨"/p".data, "get".data, none⟩ ∧
    ((OperationIds.empty.insert_opid_with_path_method "a".data "/p".data
        "get".data).2.insert_opid_with_path_method "a".data "/p".data "get".data).1 =
      .error (.duplicateId "a".data) := by
  decide

/-- C6 (amended): with a valid normalized key, explicit registration fails
with the duplicate-ID error exactly when the id is already assigned — to any
endpoint, the same one included, because that check runs first — and, when
the id is unassigned, fails with the duplicate-endpoint error exactly when
the key already has an assigned ID. -/
theorem c6_error_discrimination (s : OperationIds) (id path method : Str)
    (key : PathMethod) (hk : normalizeKey path method = .ok key) :
    ((s.insert_opid_with_path_method id path method).1 =
        .error (.duplicateId id) ↔ alookup s.opid_to_path_method id ≠ none) ∧
    (alookup s.opid_to_path_method id = none →
      ((s.insert_opid_with_path_method id path method).1 =
          .error (.duplicateEndpoint key.path key.method) ↔
        alookup s.path_method_to_opid key ≠ none)) := by
  by_cases h1 : (alookup s.opid_to_path_method id).isSome
  · constructor
    · simp only [OperationIds.insert_opid_with_path_method, hk, if_pos h1]
      simp [Option.isSome_iff_ne_none.mp h1]
    · intro hnone
      rw [hnone] at h1
      simp at h1
  · have h1n : alookup s.opid_to_path_method id = none :=
      Option.not_isSome_iff_eq_none.mp h1
    by_cases h2 : (alookup s.path_method_to_opid key).isSome
    · constructor
      · simp only [OperationIds.insert_opid_with_path_method, hk, if_neg h1, if_pos h2]
        simp [h1n]
      · intro _
        simp only [OperationIds.insert_opid_with_path_method, hk, if_neg h1, if_pos h2]
        simp [Option.isSome_iff_ne_none.mp h2]
    · have h2n : alookup s.path_method_to_opid key = none :=
        Option.not_isSome_iff_eq_none.mp h2
      constructor
      · simp only [OperationIds.insert_opid_with_path_method, hk, if_neg h1, if_neg h2]
        simp [h1n]
      · intro _
        simp only [OperationIds.insert_opid_with_path_method, hk, if_neg h1, if_neg h2]
        simp [h2n]

/-- C6 witness: the amended error discrimination evaluated on the empty
registry. -/
theorem c6_error_discrimination_witness :
    ((OperationIds.empty.insert_opid_with_path_method "a".data "/p".data
        "get".data).1 = .error (.duplicateId "a".data) ↔
      alookup OperationIds.empty.opid_to_path_method "a".data ≠ none) ∧
    (alookup OperationIds.empty.opid_to_path_method "a".data = none →
      ((OperationIds.empty.insert_opid_with_path_method "a".data "/p".data
          "get".data).1 = .error (.duplicateEndpoint
            (PathMethod.path ⟨"/p".data, "get".data, none⟩)
            (PathMethod.method ⟨"/p".data, "get".data, none⟩)) ↔
        alookup OperationIds.empty.path_method_to_opid
          ⟨"/p".data, "get".data, none⟩ ≠ none)) :=
  c6_error_discrimination OperationIds.empty "a".data "/p".data "get".data
    ⟨"/p".data, "get".data, none⟩ (by decide)

/-- C7: whenever explicit registration fails — invalid key, duplicate ID or
duplicate endpoint — both maps are exactly as they were before the call. -/
theorem c7_atomic_rejection (s : OperationIds) (id path method : Str) (e : RegError)
    (h : (s.insert_opid_with_path_method id path method).1 = .error e) :
    (s.insert_opid_with_path_method id path method).2 = s := by
  cases hk : normalizeKey path method with
  | error e2 =>
    simp only [OperationIds.insert_opid_with_path_method, hk]
  | ok key =>
    simp only [OperationIds.insert_opid_with_path_method, hk] at h ⊢
    by_cases h1 : (alookup s.opid_to_path_method id).isSome
    · rw [if_pos h1]
    · rw [if_neg h1] at h ⊢
      by_cases h2 : (alookup s.path_method_to_opid key).isSome
      · rw [if_pos h2]
      · rw [if_neg h2] at h
        simp at h

/-- C7 witness: a failing call (empty path, the invalid-key error) leaves
the registry unchanged. -/
theorem c7_atomic_rejection_witness :
    (OperationIds.empty.insert_opid_with_path_method "a".data [] "get".data).2 =
      OperationIds.empty :=
  c7_atomic_rejection OperationIds.empty "a".data [] "get".data .invalidKey (by decide)

/-- C8: on a path assembled from at least one well-formed non-empty
brace-delimited parameter region (brace-free literals and names, brace-free
trailing text), `extract_params` returns exactly the parameter names in
left-to-right order and the normalized path in which each region became the
placeholder while all literal text, the trailing text included, is kept. -/
theorem c8_normalizer_wellformed (segs : List (Str × Str)) (tail : Str)
    (hne : segs ≠ [])
    (hsegs : ∀ p ∈ segs, braceFree p.1 ∧ braceFree p.2 ∧ p.2 ≠ [])
    (htail : braceFree tail) :
    extract_params (assemble segs tail) =
      some (segs.map Prod.snd, segsClean segs ++ tail) := by
  rw [extract_assemble segs tail
    (fun p hp => ⟨(hsegs p hp).1, (hsegs p hp).2.1⟩) htail]
  rw [segsParams_all_nonempty segs (fun p hp => (hsegs p hp).2.2)]
  rw [if_neg (by simp [hne])]

/-- C8 witness: the claim's example `/foo/\x7bbar\x7d/baz`. -/
theorem c8_normalizer_wellformed_witness :
    extract_params "/foo/\x7bbar\x7d/baz".data =
      some (["bar".data], "/foo/\x7b\x7d/baz".data) :=
  c8_normalizer_wellformed [("/foo/".data, "bar".data)] "/baz".data
    (by decide) (by decide) (by decide)

/-- C9 (counterexample): on `/a/\x7b\x7d/b`, where the only parameter region
is empty, `extract_params` signals absent (`none`) — it does not return the
normalized path the claim promises. -/
theorem c9_empty_regions_cex :
    extract_params "/a/\x7b\x7d/b".data = none := by
  decide

/-- C9 (amended): empty `\x7b\x7d` regions capture no parameter name, and
absent is signaled whenever no name at all was captured — in particular on
every path all of whose parameter regions are empty, even though such a path
does contain regions. -/
theorem c9_empty_regions (segs : List (Str × Str)) (tail : Str)
    (_hne : segs ≠ [])
    (hsegs : ∀ p ∈ segs, braceFree p.1 ∧ p.2 = []) (htail : braceFree tail) :
    extract_params (assemble segs tail) = none := by
  rw [extract_assemble segs tail
    (fun p hp => ⟨(hsegs p hp).1,
      fun c hc => (List.not_mem_nil c ((hsegs p hp).2 ▸ hc)).elim⟩) htail]
  rw [if_pos (segsParams_all_empty segs (fun p hp => (hsegs p hp).2))]

/-- C9 witness: the amended behavior on `/x/\x7b\x7d/y`. -/
theorem c9_empty_regions_witness :
    extract_params "/x/\x7b\x7d/y".data = none :=
  c9_empty_regions [("/x/".data, [])] "/y".data (by decide) (by decide) (by decide)

/-- C10: on a path whose well-formed segments are followed by literal text
`mid` and an unterminated open brace, `extract_params` captures nothing from
the unterminated region, yet the normalized path contains a placeholder for
it and repeats `mid` twice: once copied before the placeholder and once as
the tail appended from the last matched close brace. -/
theorem c10_unterminated_brace (segs : List (Str × Str)) (mid rest : Str)
    (hsegs : ∀ p ∈ segs, braceFree p.1 ∧ braceFree p.2)
    (hne : ∃ p ∈ segs, p.2 ≠ [])
    (hmid : braceFree mid) (hrest : ∀ c ∈ rest, c ≠ '\x7d') :
    extract_params (assemble segs (mid ++ '\x7b' :: rest)) =
      some (segsParams segs,
        segsClean segs ++ mid ++ ['\x7b', '\x7d'] ++ mid ++ '\x7b' :: rest) := by
  rw [extract_assemble_open segs mid rest hsegs hmid hrest]
  obtain ⟨p, hp, hpne⟩ := hne
  rw [if_neg (segsParams_ne_nil segs p hp hpne)]

/-- C10 witness: the claim's example `/a/\x7bx\x7d/b/\x7by` normalizing to
`/a/\x7b\x7d/b/\x7b\x7d/b/\x7by`. -/
theorem c10_unterminated_brace_witness :
    extract_params "/a/\x7bx\x7d/b/\x7by".data =
      some (["x".data], "/a/\x7b\x7d/b/\x7b\x7d/b/\x7by".data) :=
  c10_unterminated_brace [("/a/".data, "x".data)] "/b/".data "y".data
    (by decide) ⟨("/a/".data, "x".data), by decide, by decide⟩ (by decide) (by decide)
